import Mathlib

/-!
Verification of the eta-trick seriation solver (`spectral_eta_trick_.py`).

We shallowly embed the score computation (`compute_score`), the weight
(eta) update, and the `spectral_eta_trick3` fixed-point loop, and settle
the frozen claims against this embedding.

Conventions of the embedding:
* numpy float values are modelled by an arbitrary linear ordered field
  with a floor function (instantiated at `ℚ` for concrete evaluations and
  at `ℝ`, the field used by the solver loop, where square roots appear);
* numpy integer arrays are modelled by `ℤ` (or `ℕ` for index arrays);
* a sparse (coo) matrix is its list of `(row, col, value)` triplets;
  a dense matrix is a function `ℕ → ℕ → α` read on `[0, n)²`;
* `np.argsort` is modelled by a stable insertion sort of the index list
  `[0, …, n-1]` comparing the keyed values; ties in numpy's default
  quicksort are unspecified, and every concrete input used below has
  distinct keys, for which both agree;
* in-place numpy updates of an integer array through a float value
  (`a[idx] *= 2*dh` with float `dh`) cast back with C truncation toward
  zero, which `truncToInt` models.
-/

namespace SerDupli

/-- Python `int(x)` / numpy unsafe float→int cast: truncation toward zero. -/
def truncToInt {α : Type} [LinearOrderedField α] [FloorRing α] (x : α) : ℤ :=
  if 0 ≤ x then ⌊x⌋ else ⌈x⌉

/-- The `score_function` argument of `compute_score`. The Python code matches
on the strings `'2SUM'`, `'Huber'`, `'R2S'`; the string `'1SUM'` — and any
unrecognized string — takes no branch and leaves the distances untransformed,
which is the `oneSum` behavior. -/
inductive ScoreFunction : Type
  | oneSum : ScoreFunction
  | twoSum : ScoreFunction
  | huber : ScoreFunction
  | r2s : ScoreFunction
deriving DecidableEq

/-- Sparse (coo) matrix data: `(row, col, value)` triplets. -/
abbrev Entries (α : Type) : Type := List (ℕ × ℕ × α)

/-- The `is_in_band` test of the sparse branch of `compute_score`:
`is_in_band = (d2diag <= dh)`, extended by `+= (d2diag >= n - dh)` when
`circular` (boolean or). All quantities are integers there. -/
def inBand (n : ℕ) (dh : ℤ) (circular : Bool) (d : ℤ) : Bool :=
  decide (d ≤ dh) || (circular && decide ((n : ℤ) - dh ≤ d))

/-- The transform applied to one rank distance `d` in the sparse branch of
`compute_score` (integer arithmetic throughout, since `dh` has been coerced
with `int(dh)` there):
`'2SUM'`: `d ** 2`; `'Huber'`: `d ** 2` in band, else `d * (2 * dh) - dh ** 2`;
`'R2S'`: `d ** 2` in band, else `dh ** 2`; default (`'1SUM'` and anything
else): `d` unchanged. -/
def sparseTransform (sf : ScoreFunction) (n : ℕ) (dh : ℤ) (circular : Bool)
    (d : ℤ) : ℤ :=
  match sf with
  | .oneSum => d
  | .twoSum => d ^ 2
  | .huber => if inBand n dh circular d then d ^ 2 else 2 * dh * d - dh ^ 2
  | .r2s => if inBand n dh circular d then d ^ 2 else dh ^ 2

/-- The rank/index used for position `i`: `perm[i]` when a permutation is
given (`if perm is not None`), the index `i` itself otherwise. -/
def permAt (perm : Option (ℕ → ℕ)) (i : ℕ) : ℕ :=
  match perm with
  | some p => p i
  | none => i

/-- Sparse branch of `compute_score`: `dh` is first coerced with `int(dh)`;
for each stored triplet the rank distance is `abs(perm[r] - perm[c])`
(`abs(r - c)` when no permutation is given), the loss transform is applied
to it, and the result is `sum(v * d2diag)`. -/
def compute_score_sparse {α : Type} [LinearOrderedField α] [FloorRing α]
    (n : ℕ) (entries : Entries α) (sf : ScoreFunction) (dh : α)
    (perm : Option (ℕ → ℕ)) (circular : Bool) : α :=
  let dhI : ℤ := truncToInt dh
  (entries.map (fun e =>
    let d : ℤ := |(permAt perm e.1 : ℤ) - (permAt perm e.2.1 : ℤ)|
    e.2.2 * ((sparseTransform sf n dhI circular d : ℤ) : α))).sum

/-- The transform applied to one distance `d` of the vector
`d2diagv = np.arange(n)` in the dense branch of `compute_score`. There `dh`
is NOT coerced to an integer; the band tests compare in float, in-band
entries are squared inside the integer array, and out-of-band entries go
through float arithmetic that is truncated back into the integer array on
each fancy-indexed assignment (`*= 2*dh` then `-= dh**2` for `'Huber'`,
`= dh**2` for `'R2S'`). -/
def denseTransform {α : Type} [LinearOrderedField α] [FloorRing α]
    (sf : ScoreFunction) (n : ℕ) (dh : α) (circular : Bool) (d : ℕ) : α :=
  match sf with
  | .oneSum => (d : α)
  | .twoSum => ((d ^ 2 : ℕ) : α)
  | .huber =>
    if (d : α) ≤ dh ∨ (circular = true ∧ (n : α) - dh ≤ (d : α)) then
      ((d ^ 2 : ℕ) : α)
    else ((truncToInt (((truncToInt ((d : α) * (2 * dh)) : ℤ) : α) - dh ^ 2) : ℤ) : α)
  | .r2s =>
    if (d : α) ≤ dh ∨ (circular = true ∧ (n : α) - dh ≤ (d : α)) then
      ((d ^ 2 : ℕ) : α)
    else ((truncToInt (dh ^ 2) : ℤ) : α)

/-- Dense branch of `compute_score`: the matrix is conjugated by the
permutation (`X_p = X[perm, :][:, perm]`, i.e. `X_p[a][b] = X[perm[a]][perm[b]]`),
the transformed distance vector is laid out as a Toeplitz matrix
(`toeplitz(v)[a][b] = v[|a - b|]`), and the score is the sum of the
entrywise product. -/
def compute_score_dense {α : Type} [LinearOrderedField α] [FloorRing α]
    (n : ℕ) (X : ℕ → ℕ → α) (sf : ScoreFunction) (dh : α)
    (perm : Option (ℕ → ℕ)) (circular : Bool) : α :=
  ∑ a in Finset.range n, ∑ b in Finset.range n,
    X (permAt perm a) (permAt perm b) *
      denseTransform sf n dh circular (Int.natAbs ((a : ℤ) - (b : ℤ)))

theorem truncToInt_intCast {α : Type} [LinearOrderedField α] [FloorRing α]
    (m : ℤ) : truncToInt ((m : ℤ) : α) = m := by
  unfold truncToInt
  split <;> simp

/-- Model of `np.argsort` on the keys `f 0, …, f (n-1)`: the list of indices
`0, …, n-1` sorted by key (stable; ties of numpy's default sort are
unspecified and all concrete uses below have distinct keys). -/
def argsortIdx {α : Type} [LinearOrder α] (n : ℕ) (f : ℕ → α) : List ℕ :=
  (List.range n).insertionSort (fun i j => f i ≤ f j)

/-- Model of `np.argsort` applied to an integer vector given as a list. -/
def argsortList (l : List ℕ) : List ℕ :=
  argsortIdx l.length (fun i => l.getD i 0)

/-- The double argsort `np.argsort(np.argsort(col))`: the rank of each index in the ordering of
the column values (the double argsort used for `d_perm` in the eta update of
`spectral_eta_trick3`). -/
noncomputable def rankFun (n : ℕ) (col : ℕ → ℝ) (i : ℕ) : ℕ :=
  (argsortList (argsortIdx n col)).getD i 0

/-- Circular wrap of a distance: `np.minimum(d, n - d)` when `circular`. -/
def wrapDist (n : ℕ) (circular : Bool) (d : ℤ) : ℤ :=
  if circular then min d ((n : ℤ) - d) else d

/-- Per-dimension factor of the eta update: `1. / np.sqrt(1 + dim)` when
`avg_scaling`, and `1` otherwise. -/
noncomputable def dimScale (avgScaling : Bool) (dim : ℕ) : ℝ :=
  if avgScaling then 1 / Real.sqrt (1 + (dim : ℝ)) else 1

/-- Weight (eta) update of the sparse branch of `spectral_eta_trick3`:
starting from `np.zeros(len(r))`, for each `dim < min(avg_dim, n-1)` the
vector `max(dh, wrap(|d_perm[r] - d_perm[c]|))`, scaled by
`1/sqrt(1 + dim)` when `avg_scaling`, is accumulated
(`d_perm = np.argsort(np.argsort(embedding[:, dim]))`). Accumulating the
per-dimension vectors is written here as the per-entry sum over dimensions. -/
noncomputable def sparse_eta_update (n : ℕ) (entries : Entries ℝ) (dh : ℤ)
    (circular : Bool) (avgDim : ℕ) (avgScaling : Bool)
    (embedding : ℕ → ℕ → ℝ) : List ℝ :=
  entries.map (fun e =>
    ∑ dim in Finset.range (min avgDim (n - 1)),
      ((max dh (wrapDist n circular
        |(rankFun n (fun i => embedding i dim) e.1 : ℤ) -
         (rankFun n (fun i => embedding i dim) e.2.1 : ℤ)|) : ℤ) : ℝ) *
        dimScale avgScaling dim)

/-- Weight (eta) update of the dense branch of `spectral_eta_trick3`:
`eta_mat = np.identity(n).flatten()` plus, for each `dim < min(avg_dim, n-1)`,
the clamped (and optionally scaled) rank-distance matrix
`|d_perm[j] - d_perm[i]|` laid out by `tile`/`repeat` and `reshape`. -/
noncomputable def dense_eta_update (n : ℕ) (dh : ℤ) (circular : Bool)
    (avgDim : ℕ) (avgScaling : Bool) (embedding : ℕ → ℕ → ℝ)
    (i j : ℕ) : ℝ :=
  (if i = j then 1 else 0) +
    ∑ dim in Finset.range (min avgDim (n - 1)),
      ((max dh (wrapDist n circular
        |(rankFun n (fun k => embedding k dim) j : ℤ) -
         (rankFun n (fun k => embedding k dim) i : ℤ)|) : ℤ) : ℝ) *
        dimScale avgScaling dim

/-- Loop state of `spectral_eta_trick3` (sparse branch), instrumented with
counters for embedder invocations and score evaluations. `stopped` records
that the `break` on `np.all(new_perm == best_perm)` fired. -/
structure EtaState : Type where
  bestPerm : List ℕ
  bestScore : ℝ
  eta : List ℝ
  stopped : Bool
  embCalls : ℕ
  scoreEvals : ℕ

/-- The `n_components` requested from `spectral_embedding`: `default_dim = 8`,
raised to `avg_dim + 1` when `avg_dim > 8`. -/
def defaultDim (avgDim : ℕ) : ℕ :=
  if 8 < avgDim then avgDim + 1 else 8

/-- The candidate permutation of one sparse iteration:
`np.argsort(embedding[:, 0])` where the embedding is produced by the
(external, deterministic) embedder `E` from the reweighted data
`X_w.data = v / eta_vec` and the requested number of components. -/
noncomputable def sparse_candidate (n : ℕ) (entries : Entries ℝ)
    (avgDim : ℕ) (E : List ℝ → ℕ → ℕ → ℕ → ℝ) (st : EtaState) : List ℕ :=
  argsortIdx n
    (fun i =>
      E (List.zipWith (· / ·) (entries.map (fun e => e.2.2)) st.eta)
        (defaultDim avgDim) i 0)

/-- One iteration of the sparse branch of `spectral_eta_trick3`:
reweight, embed, candidate permutation, `break` if it equals the current
best, orientation flip when `new_perm[0] > new_perm[-1]` (reversing the
embedding rows and replacing the permutation by `n-1-·`), scoring of the
candidate on the ORIGINAL matrix, replacement of `best_perm` alone when the
new score is strictly smaller (the source never updates `best_score`), and
the eta update. The `add_momentum` snapshot `eta_old` of the source is dead:
it is initialized before the loop and never read, so the momentum
coefficient does not influence this step. The `p_inv = np.argsort(new_perm)`
of the source is likewise computed but never read in this variant and is
omitted. -/
noncomputable def sparse_step (n : ℕ) (entries : Entries ℝ)
    (sf : ScoreFunction) (dh : ℤ) (circular : Bool) (avgDim : ℕ)
    (avgScaling : Bool) (E : List ℝ → ℕ → ℕ → ℕ → ℝ)
    (st : EtaState) : EtaState :=
  if st.stopped then st
  else
    let embedding : ℕ → ℕ → ℝ :=
      E (List.zipWith (· / ·) (entries.map (fun e => e.2.2)) st.eta)
        (defaultDim avgDim)
    let newPerm := sparse_candidate n entries avgDim E st
    if newPerm = st.bestPerm then
      { st with stopped := true, embCalls := st.embCalls + 1 }
    else
      let flip := newPerm.getD (n - 1) 0 < newPerm.getD 0 0
      let embedding2 : ℕ → ℕ → ℝ :=
        if flip then fun i j => embedding (n - 1 - i) j else embedding
      let newPerm2 := if flip then newPerm.map (fun x => n - 1 - x) else newPerm
      let newScore :=
        compute_score_sparse n entries sf (dh : ℝ)
          (some fun i => newPerm2.getD i 0) circular
      { bestPerm := if newScore < st.bestScore then newPerm2 else st.bestPerm
        bestScore := st.bestScore
        eta := sparse_eta_update n entries dh circular avgDim avgScaling embedding2
        stopped := false
        embCalls := st.embCalls + 1
        scoreEvals := st.scoreEvals + 1 }

/-- The solver `spectral_eta_trick3` on a sparse matrix. For `n < 3` it returns the
identity permutation `np.arange(n)` with sentinel score `-1` before any
iteration or embedder call. Otherwise it starts from the identity
permutation, the identity score of the original matrix and all-one weights,
and runs `n_iter` iterations of `sparse_step`. The momentum argument
`gamma` is accepted but, as in the source, never used by the loop. -/
noncomputable def spectral_eta_trick3_sparse (n nIter : ℕ) (dh : ℤ)
    (sf : ScoreFunction) (circular : Bool) (gamma : Option ℝ) (avgDim : ℕ)
    (avgScaling : Bool) (E : List ℝ → ℕ → ℕ → ℕ → ℝ)
    (entries : Entries ℝ) : EtaState :=
  if n < 3 then
    { bestPerm := List.range n, bestScore := -1, eta := [],
      stopped := false, embCalls := 0, scoreEvals := 0 }
  else
    (sparse_step n entries sf dh circular avgDim avgScaling E)^[nIter]
      { bestPerm := List.range n
        bestScore := compute_score_sparse n entries sf (dh : ℝ) none circular
        eta := List.replicate entries.length 1
        stopped := false
        embCalls := 0
        scoreEvals := 0 }

/-- Loop state of `spectral_eta_trick3` (dense branch). The dense branch has
no `break` (the identity-with-best check is commented out in the source), so
there is no `stopped` flag. -/
structure DenseEtaState : Type where
  bestPerm : List ℕ
  bestScore : ℝ
  eta : ℕ → ℕ → ℝ
  embCalls : ℕ
  scoreEvals : ℕ

/-- One iteration of the dense branch of `spectral_eta_trick3`: reweight
(`X_w = X / eta_mat`), embed, candidate permutation
`np.argsort(embedding[:, 0])`, scoring on the original matrix, replacement
of `best_perm` alone when strictly better, and the dense eta update. The
`break`-on-convergence and the orientation flip are commented out in this
branch of the source, so every call performs the full iteration. -/
noncomputable def dense_step (n : ℕ) (X : ℕ → ℕ → ℝ) (sf : ScoreFunction)
    (dh : ℤ) (circular : Bool) (avgDim : ℕ) (avgScaling : Bool)
    (E : (ℕ → ℕ → ℝ) → ℕ → ℕ → ℕ → ℝ) (st : DenseEtaState) : DenseEtaState :=
  let embedding : ℕ → ℕ → ℝ :=
    E (fun i j => X i j / st.eta i j) (defaultDim avgDim)
  let newPerm := argsortIdx n (fun i => embedding i 0)
  let newScore :=
    compute_score_dense n X sf (dh : ℝ) (some fun i => newPerm.getD i 0) circular
  { bestPerm := if newScore < st.bestScore then newPerm else st.bestPerm
    bestScore := st.bestScore
    eta := dense_eta_update n dh circular avgDim avgScaling embedding
    embCalls := st.embCalls + 1
    scoreEvals := st.scoreEvals + 1 }

/-- The solver `spectral_eta_trick3` on a dense matrix; same `n < 3` short-circuit,
then `n_iter` unconditional iterations of `dense_step`. -/
noncomputable def spectral_eta_trick3_dense (n nIter : ℕ) (dh : ℤ)
    (sf : ScoreFunction) (circular : Bool) (gamma : Option ℝ) (avgDim : ℕ)
    (avgScaling : Bool) (E : (ℕ → ℕ → ℝ) → ℕ → ℕ → ℕ → ℝ)
    (X : ℕ → ℕ → ℝ) : DenseEtaState :=
  if n < 3 then
    { bestPerm := List.range n, bestScore := -1, eta := fun _ _ => 1,
      embCalls := 0, scoreEvals := 0 }
  else
    (dense_step n X sf dh circular avgDim avgScaling E)^[nIter]
      { bestPerm := List.range n
        bestScore := compute_score_dense n X sf (dh : ℝ) none circular
        eta := fun _ _ => 1
        embCalls := 0
        scoreEvals := 0 }

/-! ### Basic lemmas about the score transforms -/

theorem inBand_iff (n : ℕ) (dh : ℤ) (c : Bool) (d : ℤ) :
    inBand n dh c d = true ↔ d ≤ dh ∨ (c = true ∧ (n : ℤ) - dh ≤ d) := by
  cases c <;> simp [inBand]

/-- With an integer band parameter, the dense transform (float comparisons,
truncating in-place casts) coincides with the integer sparse transform. -/
theorem denseTransform_intCast {α : Type} [LinearOrderedField α] [FloorRing α]
    (sf : ScoreFunction) (n : ℕ) (dh : ℤ) (c : Bool) (d : ℕ) :
    denseTransform sf n ((dh : ℤ) : α) c d =
      ((sparseTransform sf n dh c (d : ℤ) : ℤ) : α) := by
  have hcond : ((d : α) ≤ ((dh : ℤ) : α) ∨
      (c = true ∧ (n : α) - ((dh : ℤ) : α) ≤ (d : α))) ↔
      inBand n dh c (d : ℤ) = true := by
    rw [inBand_iff]
    constructor
    · rintro (h | ⟨hc, h⟩)
      · exact Or.inl (by exact_mod_cast h)
      · refine Or.inr ⟨hc, ?_⟩
        have : ((n : ℤ) - dh : ℤ) ≤ ((d : ℤ) : ℤ) := by
          have := h
          push_cast at this ⊢
          exact_mod_cast this
        exact this
    · rintro (h | ⟨hc, h⟩)
      · exact Or.inl (by exact_mod_cast h)
      · refine Or.inr ⟨hc, ?_⟩
        exact_mod_cast h
  cases sf with
  | oneSum => simp [denseTransform, sparseTransform]
  | twoSum =>
    simp only [denseTransform, sparseTransform]
    push_cast
    ring
  | huber =>
    simp only [denseTransform, sparseTransform]
    rw [if_congr hcond rfl rfl]
    by_cases hb : inBand n dh c (d : ℤ) = true
    · rw [if_pos hb, if_pos hb]
      push_cast
      ring
    · rw [if_neg hb, if_neg hb]
      have h1 : ((d : α) * (2 * ((dh : ℤ) : α))) = (((d : ℤ) * (2 * dh) : ℤ) : α) := by
        push_cast
        ring
      rw [h1, truncToInt_intCast]
      have h2 : ((((d : ℤ) * (2 * dh) : ℤ) : α) - ((dh : ℤ) : α) ^ 2) =
          ((((d : ℤ) * (2 * dh) - dh ^ 2 : ℤ)) : α) := by
        push_cast
        ring
      rw [h2, truncToInt_intCast]
      push_cast
      ring
  | r2s =>
    simp only [denseTransform, sparseTransform]
    rw [if_congr hcond rfl rfl]
    by_cases hb : inBand n dh c (d : ℤ) = true
    · rw [if_pos hb, if_pos hb]
      push_cast
      ring
    · rw [if_neg hb, if_neg hb]
      have h2 : (((dh : ℤ) : α) ^ 2) = (((dh ^ 2 : ℤ)) : α) := by
        push_cast
        ring
      rw [h2, truncToInt_intCast]

/-! ### C3: the Huber branch formulas -/

/-- C3. For every matrix (sparse or dense), every permutation argument,
every integer band parameter `dh` and both circular flags, the Huber score
is the sum, over the weighted pairs, of `weight * d^2` when
`d ≤ dh` (or also `d ≥ n - dh` when circular) and of
`weight * (2*dh*d - dh^2)` otherwise; and the two branch formulas coincide
at `d = dh`. -/
theorem huber_score_branch_formula {α : Type} [LinearOrderedField α]
    [FloorRing α] (n : ℕ) (entries : Entries α) (X : ℕ → ℕ → α) (dh : ℤ)
    (perm : Option (ℕ → ℕ)) (circular : Bool) :
    (compute_score_sparse n entries .huber ((dh : ℤ) : α) perm circular =
      (entries.map (fun e =>
        e.2.2 *
          ((if |(permAt perm e.1 : ℤ) - (permAt perm e.2.1 : ℤ)| ≤ dh ∨
                (circular = true ∧
                  (n : ℤ) - dh ≤ |(permAt perm e.1 : ℤ) - (permAt perm e.2.1 : ℤ)|)
            then |(permAt perm e.1 : ℤ) - (permAt perm e.2.1 : ℤ)| ^ 2
            else 2 * dh * |(permAt perm e.1 : ℤ) - (permAt perm e.2.1 : ℤ)| - dh ^ 2 : ℤ) : α))).sum) ∧
    (compute_score_dense n X .huber ((dh : ℤ) : α) perm circular =
      ∑ a in Finset.range n, ∑ b in Finset.range n,
        X (permAt perm a) (permAt perm b) *
          ((if |(a : ℤ) - (b : ℤ)| ≤ dh ∨
                (circular = true ∧ (n : ℤ) - dh ≤ |(a : ℤ) - (b : ℤ)|)
            then |(a : ℤ) - (b : ℤ)| ^ 2
            else 2 * dh * |(a : ℤ) - (b : ℤ)| - dh ^ 2 : ℤ) : α)) ∧
    (∀ d : ℤ, d = dh → d ^ 2 = 2 * dh * d - dh ^ 2) := by
  refine ⟨?_, ?_, ?_⟩
  · unfold compute_score_sparse
    rw [truncToInt_intCast]
    refine congrArg List.sum (List.map_congr_left ?_)
    intro e _
    simp only
    congr 1
    rw [show (sparseTransform .huber n dh circular
        |(permAt perm e.1 : ℤ) - (permAt perm e.2.1 : ℤ)| : ℤ) =
        (if |(permAt perm e.1 : ℤ) - (permAt perm e.2.1 : ℤ)| ≤ dh ∨
            (circular = true ∧
              (n : ℤ) - dh ≤ |(permAt perm e.1 : ℤ) - (permAt perm e.2.1 : ℤ)|)
          then |(permAt perm e.1 : ℤ) - (permAt perm e.2.1 : ℤ)| ^ 2
          else 2 * dh * |(permAt perm e.1 : ℤ) - (permAt perm e.2.1 : ℤ)| - dh ^ 2)
      from ?_]
    unfold sparseTransform
    rw [if_congr (inBand_iff n dh circular _) rfl rfl]
  · unfold compute_score_dense
    refine Finset.sum_congr rfl (fun a _ => Finset.sum_congr rfl (fun b _ => ?_))
    rw [denseTransform_intCast]
    congr 1
    unfold sparseTransform
    rw [if_congr (inBand_iff n dh circular _) rfl rfl]
    rw [show ((Int.natAbs ((a : ℤ) - (b : ℤ)) : ℤ)) = |(a : ℤ) - (b : ℤ)| from
      Int.abs_eq_natAbs _ ▸ rfl]
  · intro d hd
    subst hd
    ring

/-! ### C7: Huber coincides with 2SUM when the band covers every distance -/

theorem abs_sub_lt_of_lt {x y n : ℕ} (hx : x < n) (hy : y < n) :
    |(x : ℤ) - (y : ℤ)| < (n : ℤ) := by
  rw [abs_sub_lt_iff]
  omega

/-- C7. When `dh ≥ n`, every rank distance of a valid permutation is in
band, so the Huber score equals the 2SUM score, on sparse matrices (with
in-range indices) and on dense ones. -/
theorem huber_eq_twoSum_of_large_dh {α : Type} [LinearOrderedField α]
    [FloorRing α] (n : ℕ) (entries : Entries α) (X : ℕ → ℕ → α) (dh : ℤ)
    (perm : Option (ℕ → ℕ)) (circular : Bool)
    (hdh : (n : ℤ) ≤ dh)
    (hent : ∀ e ∈ entries, e.1 < n ∧ e.2.1 < n)
    (hperm : ∀ i, i < n → permAt perm i < n) :
    compute_score_sparse n entries .huber ((dh : ℤ) : α) perm circular =
      compute_score_sparse n entries .twoSum ((dh : ℤ) : α) perm circular ∧
    compute_score_dense n X .huber ((dh : ℤ) : α) perm circular =
      compute_score_dense n X .twoSum ((dh : ℤ) : α) perm circular := by
  constructor
  · simp only [compute_score_sparse, truncToInt_intCast]
    refine congrArg List.sum (List.map_congr_left ?_)
    intro e he
    have h1 := hperm e.1 (hent e he).1
    have h2 := hperm e.2.1 (hent e he).2
    have hd : |(permAt perm e.1 : ℤ) - (permAt perm e.2.1 : ℤ)| ≤ dh :=
      le_trans (le_of_lt (abs_sub_lt_of_lt h1 h2)) hdh
    have hb : inBand n dh circular
        |(permAt perm e.1 : ℤ) - (permAt perm e.2.1 : ℤ)| = true :=
      (inBand_iff _ _ _ _).2 (Or.inl hd)
    simp only [sparseTransform, hb, if_true]
  · unfold compute_score_dense
    refine Finset.sum_congr rfl (fun a ha => Finset.sum_congr rfl (fun b hb => ?_))
    have ha' : a < n := Finset.mem_range.1 ha
    have hb' : b < n := Finset.mem_range.1 hb
    have hd : ((Int.natAbs ((a : ℤ) - (b : ℤ)) : ℕ) : α) ≤ ((dh : ℤ) : α) := by
      have h0 : ((Int.natAbs ((a : ℤ) - (b : ℤ)) : ℕ) : ℤ) ≤ dh := by
        rw [Int.natCast_natAbs]
        exact le_trans (le_of_lt (abs_sub_lt_of_lt ha' hb')) hdh
      rw [show ((Int.natAbs ((a : ℤ) - (b : ℤ)) : ℕ) : α) =
        (((Int.natAbs ((a : ℤ) - (b : ℤ)) : ℕ) : ℤ) : α) from
        (Int.cast_natCast _).symm]
      exact Int.cast_le.mpr h0
    simp only [denseTransform, hd, true_or, if_true]

/-- C7 witness: a concrete instantiation with `n = 2`, `dh = 5`. -/
theorem huber_eq_twoSum_of_large_dh_witness :
    compute_score_sparse 2 [(0, 1, (3 : ℚ))] .huber ((5 : ℤ) : ℚ) none false =
      compute_score_sparse 2 [(0, 1, (3 : ℚ))] .twoSum ((5 : ℤ) : ℚ) none false ∧
    compute_score_dense 2 (fun i j => if i = 0 ∧ j = 1 then (3 : ℚ) else 0)
        .huber ((5 : ℤ) : ℚ) none false =
      compute_score_dense 2 (fun i j => if i = 0 ∧ j = 1 then (3 : ℚ) else 0)
        .twoSum ((5 : ℤ) : ℚ) none false :=
  huber_eq_twoSum_of_large_dh 2 [(0, 1, 3)]
    (fun i j => if i = 0 ∧ j = 1 then (3 : ℚ) else 0) 5 none false
    (by decide) (by decide) (fun i h => h)

/-! ### C8: robust 2SUM never exceeds 2SUM -/

theorem sparseTransform_r2s_le_twoSum (n : ℕ) (dh : ℤ) (c : Bool) (d : ℤ)
    (hdh : 0 < dh) (hd : 0 ≤ d) :
    sparseTransform .r2s n dh c d ≤ sparseTransform .twoSum n dh c d := by
  simp only [sparseTransform]
  by_cases hb : inBand n dh c d = true
  · rw [if_pos hb]
  · rw [if_neg hb]
    have hlt : dh < d := by
      by_contra hcon
      exact hb ((inBand_iff _ _ _ _).2 (Or.inl (not_lt.1 hcon)))
    exact pow_le_pow_left₀ hdh.le hlt.le 2

/-- C8. For a nonnegative matrix, a positive integer band parameter, every
permutation argument and both circular flags, the `R2S` score is at most
the `2SUM` score (its flat tail is dominated by the quadratic), in both
the sparse and the dense representation. -/
theorem r2s_le_twoSum_score {α : Type} [LinearOrderedField α] [FloorRing α]
    (n : ℕ) (entries : Entries α) (X : ℕ → ℕ → α) (dh : ℤ)
    (perm : Option (ℕ → ℕ)) (circular : Bool)
    (hdh : 0 < dh)
    (hv : ∀ e ∈ entries, 0 ≤ e.2.2)
    (hX : ∀ a b, 0 ≤ X a b) :
    compute_score_sparse n entries .r2s ((dh : ℤ) : α) perm circular ≤
      compute_score_sparse n entries .twoSum ((dh : ℤ) : α) perm circular ∧
    compute_score_dense n X .r2s ((dh : ℤ) : α) perm circular ≤
      compute_score_dense n X .twoSum ((dh : ℤ) : α) perm circular := by
  constructor
  · simp only [compute_score_sparse, truncToInt_intCast]
    refine List.sum_le_sum ?_
    intro e he
    refine mul_le_mul_of_nonneg_left ?_ (hv e he)
    have := sparseTransform_r2s_le_twoSum n dh circular
      |(permAt perm e.1 : ℤ) - (permAt perm e.2.1 : ℤ)| hdh (abs_nonneg _)
    exact_mod_cast this
  · unfold compute_score_dense
    refine Finset.sum_le_sum (fun a _ => Finset.sum_le_sum (fun b _ => ?_))
    refine mul_le_mul_of_nonneg_left ?_ (hX _ _)
    rw [denseTransform_intCast, denseTransform_intCast]
    have := sparseTransform_r2s_le_twoSum n dh circular
      ((Int.natAbs ((a : ℤ) - (b : ℤ)) : ℕ) : ℤ) hdh (Int.natCast_nonneg _)
    exact_mod_cast this

/-- C8 witness: a concrete instantiation on a 3×3 matrix with one
out-of-band pair (`dh = 1`, pair at distance 2). -/
theorem r2s_le_twoSum_score_witness :
    compute_score_sparse 3 [(0, 2, (2 : ℚ))] .r2s ((1 : ℤ) : ℚ) none false ≤
      compute_score_sparse 3 [(0, 2, (2 : ℚ))] .twoSum ((1 : ℤ) : ℚ) none false ∧
    compute_score_dense 3 (fun i j => if i = 0 ∧ j = 2 then (2 : ℚ) else 0)
        .r2s ((1 : ℤ) : ℚ) none false ≤
      compute_score_dense 3 (fun i j => if i = 0 ∧ j = 2 then (2 : ℚ) else 0)
        .twoSum ((1 : ℤ) : ℚ) none false :=
  r2s_le_twoSum_score 3 [(0, 2, 2)]
    (fun i j => if i = 0 ∧ j = 2 then (2 : ℚ) else 0) 1 none false
    (by decide) (by decide)
    (fun a b => by dsimp only; split <;> norm_num)

/-! ### C2: the circular flag and the rank distance -/

/-- C2 counterexample. With `circular = true`, loss `'1SUM'`, the identity
ranking on `n = 3` and the single nonzero entry `(0, 2)` of weight `1`, the
pair is at rank distance `d = 2 = n - 1`; the claim says the transform
receives `min(d, n - d) = 1`, so the score would be `1 * 1 = 1`, but
`compute_score` never wraps the distance and returns `2`. -/
theorem circular_wrap_counterexample :
    compute_score_sparse 3 [(0, 2, (1 : ℚ))] .oneSum (1 : ℚ) none true = 2 ∧
    compute_score_sparse 3 [(0, 2, (1 : ℚ))] .oneSum (1 : ℚ) none true ≠
      1 * min (2 : ℚ) ((3 : ℚ) - 2) := by
  constructor
  · norm_num [compute_score_sparse, sparseTransform, permAt, truncToInt]
  · norm_num [compute_score_sparse, sparseTransform, permAt, truncToInt]

/-- C2 amended. `compute_score` never replaces the rank distance by
`min(d, n - d)`: the raw distance always enters the loss transform. The
circular flag only widens the in-band test of the `Huber` and `R2S` losses
to `d ≤ dh ∨ d ≥ n - dh`; under `1SUM` and `2SUM` it has no effect at all
(sparse and dense), and under `1SUM` with `circular = true` a pair at rank
distance `n - 1` contributes `weight * (n - 1)`, not `weight * 1`. -/
theorem circular_widens_band_only {α : Type} [LinearOrderedField α]
    [FloorRing α] (n : ℕ) (entries : Entries α) (X : ℕ → ℕ → α) (dh : α)
    (perm : Option (ℕ → ℕ)) (w : α) :
    (compute_score_sparse n entries .oneSum dh perm true =
      compute_score_sparse n entries .oneSum dh perm false) ∧
    (compute_score_sparse n entries .twoSum dh perm true =
      compute_score_sparse n entries .twoSum dh perm false) ∧
    (compute_score_dense n X .oneSum dh perm true =
      compute_score_dense n X .oneSum dh perm false) ∧
    (compute_score_dense n X .twoSum dh perm true =
      compute_score_dense n X .twoSum dh perm false) ∧
    (compute_score_sparse n [(0, 1, w)] .oneSum dh
      (some fun i => if i = 0 then 0 else n - 1) true = w * ((n - 1 : ℕ) : α)) ∧
    (compute_score_sparse n entries .huber dh perm true =
      (entries.map (fun e =>
        e.2.2 *
          ((if |(permAt perm e.1 : ℤ) - (permAt perm e.2.1 : ℤ)| ≤ truncToInt dh ∨
              (n : ℤ) - truncToInt dh ≤
                |(permAt perm e.1 : ℤ) - (permAt perm e.2.1 : ℤ)|
            then |(permAt perm e.1 : ℤ) - (permAt perm e.2.1 : ℤ)| ^ 2
            else 2 * truncToInt dh * |(permAt perm e.1 : ℤ) - (permAt perm e.2.1 : ℤ)| -
              truncToInt dh ^ 2 : ℤ) : α))).sum) ∧
    (compute_score_sparse n entries .r2s dh perm true =
      (entries.map (fun e =>
        e.2.2 *
          ((if |(permAt perm e.1 : ℤ) - (permAt perm e.2.1 : ℤ)| ≤ truncToInt dh ∨
              (n : ℤ) - truncToInt dh ≤
                |(permAt perm e.1 : ℤ) - (permAt perm e.2.1 : ℤ)|
            then |(permAt perm e.1 : ℤ) - (permAt perm e.2.1 : ℤ)| ^ 2
            else truncToInt dh ^ 2 : ℤ) : α))).sum) := by
  refine ⟨rfl, rfl, rfl, rfl, ?_, ?_, ?_⟩
  · simp only [compute_score_sparse, permAt, List.map_cons, List.map_nil,
      List.sum_cons, List.sum_nil, add_zero]
    norm_num [sparseTransform]
  · unfold compute_score_sparse
    refine congrArg List.sum (List.map_congr_left ?_)
    intro e _
    simp only
    congr 1
    rw [show (sparseTransform .huber n (truncToInt dh) true
        |(permAt perm e.1 : ℤ) - (permAt perm e.2.1 : ℤ)| : ℤ) =
        (if |(permAt perm e.1 : ℤ) - (permAt perm e.2.1 : ℤ)| ≤ truncToInt dh ∨
            (n : ℤ) - truncToInt dh ≤
              |(permAt perm e.1 : ℤ) - (permAt perm e.2.1 : ℤ)|
          then |(permAt perm e.1 : ℤ) - (permAt perm e.2.1 : ℤ)| ^ 2
          else 2 * truncToInt dh * |(permAt perm e.1 : ℤ) - (permAt perm e.2.1 : ℤ)| -
            truncToInt dh ^ 2) from ?_]
    simp only [sparseTransform]
    rw [if_congr ((inBand_iff n (truncToInt dh) true _).trans
      (or_congr_right (and_iff_right rfl))) rfl rfl]
  · unfold compute_score_sparse
    refine congrArg List.sum (List.map_congr_left ?_)
    intro e _
    simp only
    congr 1
    rw [show (sparseTransform .r2s n (truncToInt dh) true
        |(permAt perm e.1 : ℤ) - (permAt perm e.2.1 : ℤ)| : ℤ) =
        (if |(permAt perm e.1 : ℤ) - (permAt perm e.2.1 : ℤ)| ≤ truncToInt dh ∨
            (n : ℤ) - truncToInt dh ≤
              |(permAt perm e.1 : ℤ) - (permAt perm e.2.1 : ℤ)|
          then |(permAt perm e.1 : ℤ) - (permAt perm e.2.1 : ℤ)| ^ 2
          else truncToInt dh ^ 2) from ?_]
    simp only [sparseTransform]
    rw [if_congr ((inBand_iff n (truncToInt dh) true _).trans
      (or_congr_right (and_iff_right rfl))) rfl rfl]

/-! ### C9: dense vs sparse representation -/

/-- C9 counterexample. The sparse branch ranks items through `perm[r]`
while the dense branch conjugates the matrix (`X[perm, :][:, perm]`), which
amounts to ranking through the INVERSE permutation. For the symmetric
matrix with the single pair `(0, 1)` of weight `1` and the permutation
`[1, 2, 0]` (a 3-cycle, not an involution), loss `'1SUM'`, `dh = 1`,
`circular = false`, the sparse score is `2` and the dense score is `4`. -/
theorem dense_sparse_mismatch_counterexample :
    compute_score_sparse 3 [(0, 1, (1 : ℚ)), (1, 0, 1)] .oneSum (1 : ℚ)
      (some fun i => if i = 0 then 1 else if i = 1 then 2 else 0) false = 2 ∧
    compute_score_dense 3
      (fun i j => if i = 0 ∧ j = 1 ∨ i = 1 ∧ j = 0 then (1 : ℚ) else 0)
      .oneSum (1 : ℚ)
      (some fun i => if i = 0 then 1 else if i = 1 then 2 else 0) false = 4 ∧
    (2 : ℚ) ≠ 4 := by
  refine ⟨?_, ?_, by norm_num⟩
  · norm_num [compute_score_sparse, sparseTransform, permAt, truncToInt]
  · norm_num [compute_score_dense, denseTransform, permAt, truncToInt,
      Finset.sum_range_succ]

/-- The value stored for the key `(i, j)` in a triplet list (0 when the key
is absent; duplicate keys add up, matching coo semantics). -/
def entryLookup {α : Type} [LinearOrderedField α] (entries : Entries α)
    (i j : ℕ) : α :=
  ((entries.filter (fun e => decide (e.1 = i ∧ e.2.1 = j))).map
    (fun e => e.2.2)).sum

theorem entryLookup_cons {α : Type} [LinearOrderedField α] (e : ℕ × ℕ × α)
    (l : Entries α) (i j : ℕ) :
    entryLookup (e :: l) i j =
      (if e.1 = i ∧ e.2.1 = j then e.2.2 else 0) + entryLookup l i j := by
  by_cases h : e.1 = i ∧ e.2.1 = j <;>
    simp [entryLookup, List.filter_cons, h]

theorem single_key_double_sum {α : Type} [LinearOrderedField α] (n : ℕ)
    (e : ℕ × ℕ × α) (g : ℕ → ℕ → α) (h1 : e.1 < n) (h2 : e.2.1 < n) :
    (∑ i in Finset.range n, ∑ j in Finset.range n,
      (if e.1 = i ∧ e.2.1 = j then e.2.2 else 0) * g i j) =
      e.2.2 * g e.1 e.2.1 := by
  have hinner : ∀ i, (∑ j in Finset.range n,
      (if e.1 = i ∧ e.2.1 = j then e.2.2 else 0) * g i j) =
      if e.1 = i then e.2.2 * g i e.2.1 else 0 := by
    intro i
    by_cases hi : e.1 = i
    · rw [if_pos hi]
      have : ∀ j ∈ Finset.range n,
          (if e.1 = i ∧ e.2.1 = j then e.2.2 else 0) * g i j =
          if e.2.1 = j then e.2.2 * g i j else 0 := by
        intro j _
        by_cases hj : e.2.1 = j <;> simp [hi, hj]
      rw [Finset.sum_congr rfl this, Finset.sum_ite_eq]
      simp [Finset.mem_range.2 h2]
    · rw [if_neg hi]
      refine Finset.sum_eq_zero (fun j _ => ?_)
      rw [if_neg (fun h : e.1 = i ∧ e.2.1 = j => hi h.1), zero_mul]
  rw [Finset.sum_congr rfl (fun i _ => hinner i), Finset.sum_ite_eq]
  simp [Finset.mem_range.2 h1]

/-- A sum of `value * g row col` over the stored triplets equals the double
sum of `entryLookup * g` over the full grid. -/
theorem entries_sum_eq_double_sum {α : Type} [LinearOrderedField α] (n : ℕ)
    (entries : Entries α) (g : ℕ → ℕ → α)
    (hb : ∀ e ∈ entries, e.1 < n ∧ e.2.1 < n) :
    (entries.map (fun e => e.2.2 * g e.1 e.2.1)).sum =
      ∑ i in Finset.range n, ∑ j in Finset.range n,
        entryLookup entries i j * g i j := by
  induction entries with
  | nil => simp [entryLookup]
  | cons e l ih =>
    have hb' : ∀ e' ∈ l, e'.1 < n ∧ e'.2.1 < n :=
      fun e' he' => hb e' (List.mem_cons_of_mem _ he')
    have hbe := hb e (List.mem_cons_self _ _)
    calc ((e :: l).map (fun e => e.2.2 * g e.1 e.2.1)).sum
        = e.2.2 * g e.1 e.2.1 + (l.map (fun e => e.2.2 * g e.1 e.2.1)).sum := by
          simp
      _ = (∑ i in Finset.range n, ∑ j in Finset.range n,
            (if e.1 = i ∧ e.2.1 = j then e.2.2 else 0) * g i j) +
          (∑ i in Finset.range n, ∑ j in Finset.range n,
            entryLookup l i j * g i j) := by
          rw [single_key_double_sum n e g hbe.1 hbe.2, ih hb']
      _ = ∑ i in Finset.range n, ∑ j in Finset.range n,
            entryLookup (e :: l) i j * g i j := by
          rw [← Finset.sum_add_distrib]
          refine Finset.sum_congr rfl (fun i _ => ?_)
          rw [← Finset.sum_add_distrib]
          refine Finset.sum_congr rfl (fun j _ => ?_)
          rw [entryLookup_cons, add_mul]

/-- C9 amended. For an INTEGER band parameter, the dense score under a
permutation `p` equals the sparse score of the same logical matrix under
the inverse permutation of `p` — not under `p` itself — and the two
representations agree as claimed when no permutation is passed. -/
theorem dense_eq_sparse_inverse_perm {α : Type} [LinearOrderedField α]
    [FloorRing α] (n : ℕ) (entries : Entries α) (X : ℕ → ℕ → α)
    (sf : ScoreFunction) (dh : ℤ) (circular : Bool) (p pinv : ℕ → ℕ)
    (hX : ∀ i j, i < n → j < n → X i j = entryLookup entries i j)
    (hent : ∀ e ∈ entries, e.1 < n ∧ e.2.1 < n)
    (hp : ∀ a, a < n → p a < n)
    (hpinv : ∀ i, i < n → pinv i < n)
    (hlr : ∀ a, a < n → pinv (p a) = a)
    (hrl : ∀ i, i < n → p (pinv i) = i) :
    compute_score_dense n X sf ((dh : ℤ) : α) (some p) circular =
      compute_score_sparse n entries sf ((dh : ℤ) : α) (some pinv) circular ∧
    compute_score_dense n X sf ((dh : ℤ) : α) none circular =
      compute_score_sparse n entries sf ((dh : ℤ) : α) none circular := by
  have habs : ∀ x y : ℕ, ((Int.natAbs ((x : ℤ) - (y : ℤ)) : ℕ) : ℤ) =
      |(x : ℤ) - (y : ℤ)| := fun x y => (Int.abs_eq_natAbs _).symm
  constructor
  · have hre : (∑ x in Finset.range n ×ˢ Finset.range n,
        X (p x.1) (p x.2) * ((sparseTransform sf n dh circular
          ((Int.natAbs ((x.1 : ℤ) - (x.2 : ℤ)) : ℕ) : ℤ) : ℤ) : α)) =
        ∑ y in Finset.range n ×ˢ Finset.range n,
          X y.1 y.2 * ((sparseTransform sf n dh circular
            ((Int.natAbs ((pinv y.1 : ℤ) - (pinv y.2 : ℤ)) : ℕ) : ℤ) : ℤ) : α) :=
      Finset.sum_nbij' (fun x : ℕ × ℕ => (p x.1, p x.2))
        (fun y : ℕ × ℕ => (pinv y.1, pinv y.2))
        (fun x hx' => by
          rcases Finset.mem_product.1 hx' with ⟨h1, h2⟩
          exact Finset.mem_product.2
            ⟨Finset.mem_range.2 (hp _ (Finset.mem_range.1 h1)),
             Finset.mem_range.2 (hp _ (Finset.mem_range.1 h2))⟩)
        (fun y hy' => by
          rcases Finset.mem_product.1 hy' with ⟨h1, h2⟩
          exact Finset.mem_product.2
            ⟨Finset.mem_range.2 (hpinv _ (Finset.mem_range.1 h1)),
             Finset.mem_range.2 (hpinv _ (Finset.mem_range.1 h2))⟩)
        (fun x hx' => by
          rcases Finset.mem_product.1 hx' with ⟨h1, h2⟩
          exact Prod.ext (hlr _ (Finset.mem_range.1 h1)) (hlr _ (Finset.mem_range.1 h2)))
        (fun y hy' => by
          rcases Finset.mem_product.1 hy' with ⟨h1, h2⟩
          exact Prod.ext (hrl _ (Finset.mem_range.1 h1)) (hrl _ (Finset.mem_range.1 h2)))
        (fun x hx' => by
          rcases Finset.mem_product.1 hx' with ⟨h1, h2⟩
          rw [hlr _ (Finset.mem_range.1 h1), hlr _ (Finset.mem_range.1 h2)])
    unfold compute_score_dense
    simp only [permAt, denseTransform_intCast]
    rw [← Finset.sum_product', hre, Finset.sum_product]
    have := entries_sum_eq_double_sum n entries
      (fun i j => ((sparseTransform sf n dh circular
        |(pinv i : ℤ) - (pinv j : ℤ)| : ℤ) : α)) hent
    unfold compute_score_sparse
    simp only [permAt, truncToInt_intCast]
    rw [this]
    refine Finset.sum_congr rfl (fun i hi => Finset.sum_congr rfl (fun j hj => ?_))
    rw [hX i j (Finset.mem_range.1 hi) (Finset.mem_range.1 hj)]
    congr 2
    rw [← habs]
  · unfold compute_score_dense
    simp only [permAt, denseTransform_intCast]
    have := entries_sum_eq_double_sum n entries
      (fun i j => ((sparseTransform sf n dh circular
        |(i : ℤ) - (j : ℤ)| : ℤ) : α)) hent
    unfold compute_score_sparse
    simp only [permAt, truncToInt_intCast]
    rw [this]
    refine Finset.sum_congr rfl (fun i hi => Finset.sum_congr rfl (fun j hj => ?_))
    rw [hX i j (Finset.mem_range.1 hi) (Finset.mem_range.1 hj)]
    congr 2
    rw [← habs]

/-- C9 amended witness: the counterexample's input with the inverse
permutation `[2, 0, 1]` on the sparse side. -/
theorem dense_eq_sparse_inverse_perm_witness :
    compute_score_dense 3
      (fun i j => if i = 0 ∧ j = 1 ∨ i = 1 ∧ j = 0 then (1 : ℚ) else 0)
      .oneSum ((1 : ℤ) : ℚ)
      (some fun i => if i = 0 then 1 else if i = 1 then 2 else 0) false =
      compute_score_sparse 3 [(0, 1, (1 : ℚ)), (1, 0, 1)] .oneSum
        ((1 : ℤ) : ℚ)
        (some fun i => if i = 0 then 2 else if i = 1 then 0 else 1) false ∧
    compute_score_dense 3
      (fun i j => if i = 0 ∧ j = 1 ∨ i = 1 ∧ j = 0 then (1 : ℚ) else 0)
      .oneSum ((1 : ℤ) : ℚ) none false =
      compute_score_sparse 3 [(0, 1, (1 : ℚ)), (1, 0, 1)] .oneSum
        ((1 : ℤ) : ℚ) none false :=
  dense_eq_sparse_inverse_perm 3 [(0, 1, (1 : ℚ)), (1, 0, 1)]
    (fun i j => if i = 0 ∧ j = 1 ∨ i = 1 ∧ j = 0 then (1 : ℚ) else 0)
    .oneSum 1 false
    (fun i => if i = 0 then 1 else if i = 1 then 2 else 0)
    (fun i => if i = 0 then 2 else if i = 1 then 0 else 1)
    (fun i j hi hj => by
      interval_cases i <;> interval_cases j <;>
        norm_num [entryLookup, List.filter_cons, List.filter_nil])
    (by decide)
    (fun a ha => by interval_cases a <;> norm_num)
    (fun i hi => by interval_cases i <;> norm_num)
    (fun a ha => by interval_cases a <;> norm_num)
    (fun i hi => by interval_cases i <;> norm_num)

/-! ### C4: the clamp invariant of the weight update -/

theorem dimScale_zero (b : Bool) : dimScale b 0 = 1 := by
  cases b <;> simp [dimScale]

theorem dimScale_nonneg (b : Bool) (k : ℕ) : 0 ≤ dimScale b k := by
  cases b
  · simp [dimScale]
  · simp only [dimScale, if_pos rfl]
    positivity

/-- The per-entry sum of clamped, scaled rank distances is at least `dh`:
the dimension-0 term alone contributes `max dh _ ≥ dh` (its scale factor is
`1/sqrt 1 = 1`) and every other term is nonnegative. -/
theorem clamp_sum_ge_dh (dh : ℤ) (b : Bool) (dcount : ℕ) (w : ℕ → ℤ)
    (hdh : 1 ≤ dh) (hd : 1 ≤ dcount) :
    ((dh : ℤ) : ℝ) ≤
      ∑ dim in Finset.range dcount, ((max dh (w dim) : ℤ) : ℝ) * dimScale b dim := by
  have h0 : ((dh : ℤ) : ℝ) ≤ ((max dh (w 0) : ℤ) : ℝ) * dimScale b 0 := by
    rw [dimScale_zero, mul_one]
    exact_mod_cast le_max_left _ _
  have hnn : ∀ k ∈ Finset.range dcount,
      0 ≤ ((max dh (w k) : ℤ) : ℝ) * dimScale b k := by
    intro k _
    refine mul_nonneg ?_ (dimScale_nonneg b k)
    have h1 : (0 : ℤ) ≤ max dh (w k) := le_trans (by omega) (le_max_left _ _)
    exact_mod_cast h1
  exact le_trans h0 (Finset.single_le_sum hnn (Finset.mem_range.2 hd))

/-- C4. For `n ≥ 3`, `avg_dim ≥ 1`, `dh ≥ 1`, both `avg_scaling` settings,
both circular flags and every embedding, every weight produced by the eta
update of `spectral_eta_trick3` is at least `dh` — and hence strictly
positive — in both the sparse and the dense branch. -/
theorem eta_update_ge_dh (n : ℕ) (entries : Entries ℝ) (dh : ℤ)
    (circular : Bool) (avgDim : ℕ) (avgScaling : Bool)
    (embedding : ℕ → ℕ → ℝ)
    (hdh : 1 ≤ dh) (havg : 1 ≤ avgDim) (hn : 3 ≤ n) :
    (∀ w ∈ sparse_eta_update n entries dh circular avgDim avgScaling embedding,
      ((dh : ℤ) : ℝ) ≤ w ∧ 0 < w) ∧
    (∀ i j : ℕ, ((dh : ℤ) : ℝ) ≤
        dense_eta_update n dh circular avgDim avgScaling embedding i j ∧
      0 < dense_eta_update n dh circular avgDim avgScaling embedding i j) := by
  have hdcount : 1 ≤ min avgDim (n - 1) := by omega
  have hdr : (1 : ℝ) ≤ ((dh : ℤ) : ℝ) := by exact_mod_cast hdh
  constructor
  · intro w hw
    rcases List.mem_map.1 hw with ⟨e, _, hmap⟩
    have hge : ((dh : ℤ) : ℝ) ≤ w := by
      rw [← hmap]
      exact clamp_sum_ge_dh dh avgScaling (min avgDim (n - 1))
        (fun dim => wrapDist n circular
          |(rankFun n (fun i => embedding i dim) e.1 : ℤ) -
           (rankFun n (fun i => embedding i dim) e.2.1 : ℤ)|) hdh hdcount
    exact ⟨hge, lt_of_lt_of_le (lt_of_lt_of_le one_pos hdr) hge⟩
  · intro i j
    have hge : ((dh : ℤ) : ℝ) ≤
        dense_eta_update n dh circular avgDim avgScaling embedding i j := by
      unfold dense_eta_update
      have hsum := clamp_sum_ge_dh dh avgScaling (min avgDim (n - 1))
        (fun dim => wrapDist n circular
          |(rankFun n (fun k => embedding k dim) j : ℤ) -
           (rankFun n (fun k => embedding k dim) i : ℤ)|) hdh hdcount
      have hid : (0 : ℝ) ≤ if i = j then 1 else 0 := by
        split <;> norm_num
      exact le_add_of_nonneg_of_le hid hsum
    exact ⟨hge, lt_of_lt_of_le (lt_of_lt_of_le one_pos hdr) hge⟩

/-- C4 witness: a concrete instantiation with `n = 3`, `dh = 1`,
`avg_dim = 2`, `avg_scaling = true`, read off at the dense entry `(0, 1)`. -/
theorem eta_update_ge_dh_witness :
    ((1 : ℤ) : ℝ) ≤ dense_eta_update 3 1 false 2 true (fun i _ => (i : ℝ)) 0 1 ∧
    0 < dense_eta_update 3 1 false 2 true (fun i _ => (i : ℝ)) 0 1 :=
  (eta_update_ge_dh 3 [(0, 1, (2 : ℝ))] 1 false 2 true (fun i _ => (i : ℝ))
    (by norm_num) (by norm_num) (by norm_num)).2 0 1

/-! ### C6: the `n < 3` short-circuit -/

/-- C6. For `n < 3`, `spectral_eta_trick3` (sparse and dense) returns the
identity permutation `np.arange(n)` together with the sentinel score `-1`,
with zero embedder invocations and zero score evaluations (no iteration is
entered). -/
theorem small_n_short_circuit (n nIter : ℕ) (dh : ℤ) (sf : ScoreFunction)
    (circular : Bool) (gamma : Option ℝ) (avgDim : ℕ) (avgScaling : Bool)
    (Es : List ℝ → ℕ → ℕ → ℕ → ℝ) (Ed : (ℕ → ℕ → ℝ) → ℕ → ℕ → ℕ → ℝ)
    (entries : Entries ℝ) (X : ℕ → ℕ → ℝ) (hn : n < 3) :
    (spectral_eta_trick3_sparse n nIter dh sf circular gamma avgDim
        avgScaling Es entries).bestPerm = List.range n ∧
    (spectral_eta_trick3_sparse n nIter dh sf circular gamma avgDim
        avgScaling Es entries).bestScore = -1 ∧
    (spectral_eta_trick3_sparse n nIter dh sf circular gamma avgDim
        avgScaling Es entries).embCalls = 0 ∧
    (spectral_eta_trick3_sparse n nIter dh sf circular gamma avgDim
        avgScaling Es entries).scoreEvals = 0 ∧
    (spectral_eta_trick3_dense n nIter dh sf circular gamma avgDim
        avgScaling Ed X).bestPerm = List.range n ∧
    (spectral_eta_trick3_dense n nIter dh sf circular gamma avgDim
        avgScaling Ed X).bestScore = -1 ∧
    (spectral_eta_trick3_dense n nIter dh sf circular gamma avgDim
        avgScaling Ed X).embCalls = 0 ∧
    (spectral_eta_trick3_dense n nIter dh sf circular gamma avgDim
        avgScaling Ed X).scoreEvals = 0 := by
  unfold spectral_eta_trick3_sparse spectral_eta_trick3_dense
  rw [if_pos hn, if_pos hn]
  exact ⟨rfl, rfl, rfl, rfl, rfl, rfl, rfl, rfl⟩

/-- C6 witness: `n = 2` with 5 requested iterations. -/
theorem small_n_short_circuit_witness :
    (spectral_eta_trick3_sparse 2 5 1 .huber false none 1 true
        (fun _ _ _ _ => 0) [(0, 1, 1)]).bestPerm = List.range 2 ∧
    (spectral_eta_trick3_sparse 2 5 1 .huber false none 1 true
        (fun _ _ _ _ => 0) [(0, 1, 1)]).bestScore = -1 ∧
    (spectral_eta_trick3_sparse 2 5 1 .huber false none 1 true
        (fun _ _ _ _ => 0) [(0, 1, 1)]).embCalls = 0 ∧
    (spectral_eta_trick3_sparse 2 5 1 .huber false none 1 true
        (fun _ _ _ _ => 0) [(0, 1, 1)]).scoreEvals = 0 ∧
    (spectral_eta_trick3_dense 2 5 1 .huber false none 1 true
        (fun _ _ _ _ => 0) (fun _ _ => 1)).bestPerm = List.range 2 ∧
    (spectral_eta_trick3_dense 2 5 1 .huber false none 1 true
        (fun _ _ _ _ => 0) (fun _ _ => 1)).bestScore = -1 ∧
    (spectral_eta_trick3_dense 2 5 1 .huber false none 1 true
        (fun _ _ _ _ => 0) (fun _ _ => 1)).embCalls = 0 ∧
    (spectral_eta_trick3_dense 2 5 1 .huber false none 1 true
        (fun _ _ _ _ => 0) (fun _ _ => 1)).scoreEvals = 0 :=
  small_n_short_circuit 2 5 1 .huber false none 1 true
    (fun _ _ _ _ => 0) (fun _ _ _ _ => 0) [(0, 1, 1)] (fun _ _ => 1)
    (by norm_num)

/-! ### C10: the convergence break -/

/-- C10 amended, sparse part. In the sparse branch, when the candidate
permutation of an iteration is pointwise identical to the current best, the
iteration only records the embedder call and sets the stopped flag: the
best permutation, the best score, the weights and the score-evaluation
count are unchanged, and every further iteration leaves the state fixed. -/
theorem sparse_converged_stop (n : ℕ) (entries : Entries ℝ)
    (sf : ScoreFunction) (dh : ℤ) (circular : Bool) (avgDim : ℕ)
    (avgScaling : Bool) (E : List ℝ → ℕ → ℕ → ℕ → ℝ) (st : EtaState)
    (hrun : st.stopped = false)
    (hconv : sparse_candidate n entries avgDim E st = st.bestPerm) :
    sparse_step n entries sf dh circular avgDim avgScaling E st =
      { st with stopped := true, embCalls := st.embCalls + 1 } ∧
    ∀ k, (sparse_step n entries sf dh circular avgDim avgScaling E)^[k]
        (sparse_step n entries sf dh circular avgDim avgScaling E st) =
      sparse_step n entries sf dh circular avgDim avgScaling E st := by
  have hstop : ∀ st' : EtaState, st'.stopped = true →
      sparse_step n entries sf dh circular avgDim avgScaling E st' = st' := by
    intro st' h
    unfold sparse_step
    rw [if_pos h]
  have h1 : sparse_step n entries sf dh circular avgDim avgScaling E st =
      { st with stopped := true, embCalls := st.embCalls + 1 } := by
    unfold sparse_step
    rw [if_neg (by simp [hrun])]
    simp only [hconv, if_pos rfl]
    rw [if_pos trivial]
  refine ⟨h1, ?_⟩
  intro k
  induction k with
  | zero => rfl
  | succ k ih =>
    rw [Function.iterate_succ_apply', ih]
    exact hstop _ (by rw [h1])

/-- C10 amended witness: a concrete sparse state whose candidate equals the
current best (constant embedder with ascending first column). -/
theorem sparse_converged_stop_witness :
    sparse_step 3 [(0, 2, (1 : ℝ)), (2, 0, 1)] .oneSum 1 false 1 false
      (fun _ _ i _ => (i : ℝ))
      { bestPerm := [0, 1, 2], bestScore := 4, eta := [1, 1],
        stopped := false, embCalls := 0, scoreEvals := 0 } =
      { bestPerm := [0, 1, 2], bestScore := 4, eta := [1, 1],
        stopped := true, embCalls := 1, scoreEvals := 0 } :=
  (sparse_converged_stop 3 [(0, 2, (1 : ℝ)), (2, 0, 1)] .oneSum 1 false 1
    false (fun _ _ i _ => (i : ℝ))
    { bestPerm := [0, 1, 2], bestScore := 4, eta := [1, 1],
      stopped := false, embCalls := 0, scoreEvals := 0 }
    rfl
    (by norm_num [sparse_candidate, argsortIdx, List.insertionSort,
      List.orderedInsert])).1

/-- C10 counterexample, dense part. The `break` on
`np.all(new_perm == best_perm)` is commented out in the dense branch: with
a constant embedder whose first column is ascending, the candidate equals
the current best permutation (`np.arange(3)`) from the very first
iteration, yet a 2-iteration run performs 2 embedder calls and 2 score
evaluations, and its best permutation remains the identity throughout. -/
theorem dense_no_break_counterexample :
    argsortIdx 3 (fun i => (i : ℝ)) = List.range 3 ∧
    (spectral_eta_trick3_dense 3 2 1 .oneSum false none 1 false
      (fun _ _ i _ => (i : ℝ))
      (fun i j => if i = 0 ∧ j = 1 ∨ i = 1 ∧ j = 0 then (1 : ℝ) else 0)).scoreEvals = 2 ∧
    (spectral_eta_trick3_dense 3 2 1 .oneSum false none 1 false
      (fun _ _ i _ => (i : ℝ))
      (fun i j => if i = 0 ∧ j = 1 ∨ i = 1 ∧ j = 0 then (1 : ℝ) else 0)).embCalls = 2 ∧
    (spectral_eta_trick3_dense 3 2 1 .oneSum false none 1 false
      (fun _ _ i _ => (i : ℝ))
      (fun i j => if i = 0 ∧ j = 1 ∨ i = 1 ∧ j = 0 then (1 : ℝ) else 0)).bestPerm = List.range 3 := by
  have hstep : ∀ st, (dense_step 3
      (fun i j => if i = 0 ∧ j = 1 ∨ i = 1 ∧ j = 0 then (1 : ℝ) else 0)
      .oneSum 1 false 1 false (fun _ _ i _ => (i : ℝ)) st).scoreEvals =
      st.scoreEvals + 1 := fun st => rfl
  have hstep2 : ∀ st, (dense_step 3
      (fun i j => if i = 0 ∧ j = 1 ∨ i = 1 ∧ j = 0 then (1 : ℝ) else 0)
      .oneSum 1 false 1 false (fun _ _ i _ => (i : ℝ)) st).embCalls =
      st.embCalls + 1 := fun st => rfl
  refine ⟨by norm_num [argsortIdx, List.insertionSort, List.orderedInsert]; rfl,
    ?_, ?_, ?_⟩
  · unfold spectral_eta_trick3_dense
    rw [if_neg (by norm_num)]
    rw [show (2 : ℕ) = 1 + 1 from rfl, Function.iterate_add_apply,
      Function.iterate_one]
    rw [hstep, hstep]
  · unfold spectral_eta_trick3_dense
    rw [if_neg (by norm_num)]
    rw [show (2 : ℕ) = 1 + 1 from rfl, Function.iterate_add_apply,
      Function.iterate_one]
    rw [hstep2, hstep2]
  · unfold spectral_eta_trick3_dense
    rw [if_neg (by norm_num)]
    rw [show (2 : ℕ) = 1 + 1 from rfl, Function.iterate_add_apply,
      Function.iterate_one]
    norm_num [dense_step, argsortIdx, List.insertionSort, List.orderedInsert,
      compute_score_dense, denseTransform, permAt, truncToInt, defaultDim,
      Finset.sum_range_succ]

/-! ### C1: the best score is never updated -/

/-- C1 evaluated at the failing input. On the sparse 3×3 matrix with
entries `(0, 2)` and `(2, 0)` of weight `1`, loss `'1SUM'`, `dh = 1`, one
iteration, with an embedder whose first column is `(2, 1, 3)`: the
candidate permutation `[1, 0, 2]` scores `2`, strictly better than the
initial identity score `4`, so `best_perm` is replaced — but `best_score`
is left at `4`. The run hence returns the permutation `[1, 0, 2]` together
with the score `4`, while the configured-loss score of the returned
permutation on the original matrix is `2 ≠ 4`. -/
theorem best_score_never_updated_eval :
    (spectral_eta_trick3_sparse 3 1 1 .oneSum false none 1 false
      (fun _ _ i _ => if i = 0 then (2 : ℝ) else if i = 1 then 1 else 3)
      [(0, 2, 1), (2, 0, 1)]).bestPerm = [1, 0, 2] ∧
    (spectral_eta_trick3_sparse 3 1 1 .oneSum false none 1 false
      (fun _ _ i _ => if i = 0 then (2 : ℝ) else if i = 1 then 1 else 3)
      [(0, 2, 1), (2, 0, 1)]).bestScore = 4 ∧
    compute_score_sparse 3 [(0, 2, (1 : ℝ)), (2, 0, 1)] .oneSum (1 : ℝ)
      (some fun i => if i = 0 then 1 else if i = 1 then 0 else 2) false = 2 ∧
    (4 : ℝ) ≠ 2 := by
  refine ⟨?_, ?_, ?_, by norm_num⟩
  · norm_num [spectral_eta_trick3_sparse, sparse_step, sparse_candidate,
      argsortIdx, List.insertionSort, List.orderedInsert, compute_score_sparse,
      sparseTransform, permAt, truncToInt, defaultDim, Function.iterate_one]
    rw [if_neg (by decide)]
  · norm_num [spectral_eta_trick3_sparse, sparse_step, sparse_candidate,
      argsortIdx, List.insertionSort, List.orderedInsert, compute_score_sparse,
      sparseTransform, permAt, truncToInt, defaultDim, Function.iterate_one]
    rw [if_neg (by decide)]
  · norm_num [compute_score_sparse, sparseTransform, permAt, truncToInt]

/-! ### C5: the momentum coefficient is ignored by spectral_eta_trick3 -/

/-- C5 evaluated at the failing input. In `spectral_eta_trick3` the
momentum snapshot `eta_old` is initialized but never used, so the supplied
coefficient has no effect: with `gamma = 1/2` on the sparse matrix with
entries `(0, 2)` and `(2, 0)` and an embedder whose first column is
`(3, 2, 1)` (which triggers the orientation flip), the weights after one
iteration are the raw update `[2, 2]`; the momentum blend
`(1 - gamma) * raw + gamma * previous` of the documented behavior would be
`[3/2, 3/2]` (previous weights are the all-one vector), and the run with
`gamma` set returns exactly the same state as the run with no momentum. -/
theorem momentum_ignored_eval :
    (spectral_eta_trick3_sparse 3 1 1 .oneSum false (some (1 / 2)) 1 false
      (fun _ _ i _ => if i = 0 then (3 : ℝ) else if i = 1 then 2 else 1)
      [(0, 2, 1), (2, 0, 1)]).eta = [2, 2] ∧
    (1 - 1 / 2 : ℝ) * 2 + (1 / 2) * 1 = 3 / 2 ∧
    (3 / 2 : ℝ) ≠ 2 ∧
    spectral_eta_trick3_sparse 3 1 1 .oneSum false (some (1 / 2)) 1 false
      (fun _ _ i _ => if i = 0 then (3 : ℝ) else if i = 1 then 2 else 1)
      [(0, 2, 1), (2, 0, 1)] =
    spectral_eta_trick3_sparse 3 1 1 .oneSum false none 1 false
      (fun _ _ i _ => if i = 0 then (3 : ℝ) else if i = 1 then 2 else 1)
      [(0, 2, 1), (2, 0, 1)] := by
  refine ⟨?_, by norm_num, by norm_num, rfl⟩
  norm_num [spectral_eta_trick3_sparse, sparse_step, sparse_candidate,
    argsortIdx, List.insertionSort, List.orderedInsert, compute_score_sparse,
    sparseTransform, permAt, truncToInt, defaultDim, Function.iterate_one,
    sparse_eta_update, rankFun, argsortList, wrapDist, dimScale,
    Finset.sum_range_succ]
  rw [if_neg (by decide)]

end SerDupli
